import Mathlib

set_option maxRecDepth 4000

/-!
Verification development for the in-memory hierarchical key/value store with
path-scoped change notification (package pkg/store of this repository).

The store implementation file itself is not present under src/ (only its test
file and an external caller are), so the operational definitions below are
modelled from the specification, faithful to its words: a tree whose leaves
carry string values is represented by the flat finite map from normalized
segment paths to the string values of the value-carrying nodes, together with
the multiset of live watcher anchors and the multiset of not-yet-swept watcher
anchors.  A node with children presents as a directory even when it also holds
a (shadowed) leaf value, which in the flat representation is exactly an entry
whose path has other entries strictly below it.
-/

namespace Metad

/-- Modelled from the spec: the action of an event, one of Update or Delete
(spec section 3, Event). -/
inductive Action where
  | update : Action
  | delete : Action
deriving DecidableEq

/-- Modelled from the spec: an event as synthesized by the store facade, with
its path still absolute (a normalized segment list); rewritten per watcher at
delivery time. -/
structure AbsEvent where
  action : Action
  path : List String
  value : String
deriving DecidableEq

/-- Modelled from the spec: the event delivered to a watcher, with the path
expressed relative to the watch root as a string (spec section 3, Event). -/
structure Event where
  action : Action
  path : String
  value : String
deriving DecidableEq

/-- Modelled from the spec: the user-facing value, either a string leaf or a
nested mapping (spec section 9, recursive value types). -/
inductive Value where
  | str : String → Value
  | map : List (String × Value) → Value

/-- Split a character list at every slash character. -/
def segsAux : List Char → List Char → List String
  | [], acc => [String.mk acc.reverse]
  | c :: rest, acc =>
      if c = '/' then String.mk acc.reverse :: segsAux rest []
      else segsAux rest (c :: acc)

/-- Modelled from the spec: path normalization (spec 4.1): split on slashes
and collapse blank segments; blank inputs normalize to the root, represented
by the empty segment list. -/
def normalize (path : String) : List String :=
  (segsAux path.toList []).filter (fun s => s ≠ "")

/-- Modelled from the spec: the store state.  leaves is the flat map from the
normalized path of each value-carrying node to its string value; live holds
the anchors of live watchers; anchors holds all watcher anchors not yet
reclaimed by the pruning sweeper (so live is always contained in anchors). -/
structure StoreState where
  leaves : List (List String × String)
  live : List (List String)
  anchors : List (List String)
deriving DecidableEq

/-- Modelled from the spec: the store produced by New(): an empty tree with no
watchers. -/
def newStore : StoreState := ⟨[], [], []⟩

/-- Replace the binding of key p if present, else append it. -/
def upsert (l : List (List String × String)) (p : List String) (v : String) :
    List (List String × String) :=
  if l.any (fun e => e.1 == p) then
    l.map (fun e => if e.1 == p then (p, v) else e)
  else l ++ [(p, v)]

/-- Modelled from the spec: the leaf-level Put primitive (spec 4.2 SetLeaf
composed with FindOrCreate): assign the string value at the node addressed by
the segment list p.  A scalar Put at the root is a no-op (spec invariant 5). -/
def putLeafSegs (s : StoreState) (p : List String) (v : String) : StoreState :=
  if p.isEmpty then s else { s with leaves := upsert s.leaves p v }

/-- The entries of l lying at or below p, with their paths relativized to p. -/
def relEntries (l : List (List String × String)) (p : List String) :
    List (List String × String) :=
  l.filterMap (fun e =>
    if List.isPrefixOf p e.1 then some (e.1.drop p.length, e.2) else none)

/-- The distinct child names occurring among relativized entries. -/
def childNames (l : List (List String × String)) : List String :=
  (l.filterMap (fun e => e.1.head?)).dedup

/-- The relativized entries lying under child n. -/
def subEntries (l : List (List String × String)) (n : String) :
    List (List String × String) :=
  l.filterMap (fun e =>
    match e.1 with
    | [] => none
    | h :: t => if h = n then some (t, e.2) else none)

/-- The value carried at the current node itself (relative path nil). -/
def valueOf (l : List (List String × String)) : String :=
  match l.find? (fun e => e.1.isEmpty) with
  | some e => e.2
  | none => ""

/-- The largest relative path length among entries, a fuel bound for
materialization. -/
def depth (l : List (List String × String)) : Nat :=
  l.foldr (fun e acc => Nat.max e.1.length acc) 0

/-- Modelled from the spec: recursive materialization of a node (spec 4.2
reading): a node with children reads as a mapping (any own value shadowed),
otherwise as its string value. -/
def nodeView : Nat → List (List String × String) → Value
  | 0, l => Value.str (valueOf l)
  | fuel + 1, l =>
      if (childNames l).isEmpty then Value.str (valueOf l)
      else Value.map ((childNames l).map (fun n => (n, nodeView fuel (subEntries l n))))

/-- Materialization of a node read as a directory (used at the root, which is
always a mapping). -/
def dirView (l : List (List String × String)) : Value :=
  Value.map ((childNames l).map (fun n => (n, nodeView (depth l) (subEntries l n))))

/-- Modelled from the spec: Get (spec 4.4): find the node and materialize it.
The root always reads as a (possibly empty) mapping; an absent or Empty node
reads as not found (None); a node with children reads as a mapping even when
it holds a shadowed value; a childless value-carrying node reads as its
string. -/
def getSegs (s : StoreState) (p : List String) : Option Value :=
  if p.isEmpty then some (dirView (relEntries s.leaves p))
  else if (relEntries s.leaves p).isEmpty then none
  else if (childNames (relEntries s.leaves p)).isEmpty then
    some (Value.str (valueOf (relEntries s.leaves p)))
  else some (dirView (relEntries s.leaves p))

/-- Modelled from the spec: Delete (spec 4.4): remove the whole subtree rooted
at p; ancestors that became empty are pruned, which in the flat representation
is automatic.  Watcher anchors are never touched by Delete. -/
def deleteSegs (s : StoreState) (p : List String) : StoreState :=
  { s with leaves := s.leaves.filter (fun e => !(List.isPrefixOf p e.1)) }

mutual

/-- Modelled from the spec: recursive flattening of a user-facing value into
relative leaf entries (spec 4.4 Put): a mapping is flattened recursively and
empty-string keys at any level are dropped. -/
def flatten : Value → List (List String × String)
  | Value.str v => [([], v)]
  | Value.map kvs => flattenEntries kvs

/-- Flattening of a list of mapping entries, dropping empty-string keys. -/
def flattenEntries : List (String × Value) → List (List String × String)
  | [] => []
  | (k, v) :: rest =>
      (if k = "" then [] else (flatten v).map (fun e => (k :: e.1, e.2)))
        ++ flattenEntries rest

end

/-- Modelled from the spec: Put of a user-facing value at a segment path: a
string becomes a leaf Put; a mapping is flattened and each flattened leaf is
Put at the corresponding extended path. -/
def putValue (s : StoreState) (p : List String) : Value → StoreState
  | Value.str v => putLeafSegs s p v
  | Value.map kvs =>
      (flattenEntries kvs).foldl (fun st e => putLeafSegs st (p ++ e.1) e.2) s

/-- Modelled from the spec: the public Get over string paths. -/
def Get (s : StoreState) (path : String) : Option Value :=
  getSegs s (normalize path)

/-- Modelled from the spec: the public Put over string paths. -/
def Put (s : StoreState) (path : String) (v : Value) : StoreState :=
  putValue s (normalize path) v

/-- Modelled from the spec: the public Delete over string paths. -/
def Delete (s : StoreState) (path : String) : StoreState :=
  deleteSegs s (normalize path)

/-- Modelled from the spec: the normalized path of one PutBulk entry:
normalize (prefix ++ "/" ++ key) (spec 4.4 PutBulk). -/
def bulkKey (pre : String) (kv : String × String) : List String :=
  normalize (pre ++ "/" ++ kv.1)

/-- Modelled from the spec: PutBulk (spec 4.4): for each key, normalize
prefix ++ "/" ++ key and apply as a leaf Put. -/
def PutBulk (s : StoreState) (pre : String) (kvs : List (String × String)) :
    StoreState :=
  kvs.foldl (fun st kv => putLeafSegs st (bulkKey pre kv) kv.2) s

/-- The proper prefixes of a segment path, from shortest to longest. -/
def properPrefixes (p : List String) : List (List String) :=
  (List.range p.length).map (fun k => p.take k)

/-- Some entry carries a value exactly at path p. -/
def hasValueAt (l : List (List String × String)) (p : List String) : Bool :=
  l.any (fun e => e.1 == p)

/-- Some entry lies strictly below path p (so p presents as a directory). -/
def strictlyBelow (l : List (List String × String)) (p : List String) : Bool :=
  l.any (fun e => List.isPrefixOf p e.1 && decide (p.length < e.1.length))

/-- The value recorded exactly at path p, if any. -/
def lookupVal (l : List (List String × String)) (p : List String) :
    Option String :=
  (l.find? (fun e => e.1 == p)).map (fun e => e.2)

/-- Modelled from the spec: events synthesized for a leaf Put at path p (spec
4.3 event synthesis rules): when an ancestor currently presenting as a Leaf is
about to be shadowed, a Delete for it comes first; then the Update for the
written path.  A root scalar Put synthesizes nothing. -/
def putLeafEvents (l : List (List String × String)) (p : List String)
    (v : String) : List AbsEvent :=
  if p.isEmpty then []
  else
    ((properPrefixes p).filter
        (fun a => hasValueAt l a && !(strictlyBelow l a))).map
      (fun a => ⟨Action.delete, a, ""⟩)
      ++ [⟨Action.update, p, v⟩]

/-- Modelled from the spec: events synthesized for a Delete at path p (spec
4.3): one Delete per removed descendant leaf that was visible (not shadowed),
in traversal order, followed by the Update resurrecting the shadowed value of
the ancestor directory that the removal emptied, if there is one. -/
def deleteEvents (l : List (List String × String)) (p : List String) :
    List AbsEvent :=
  let removed := l.filter (fun e => List.isPrefixOf p e.1)
  let remaining := l.filter (fun e => !(List.isPrefixOf p e.1))
  let dels := (removed.filter (fun e => !(strictlyBelow l e.1))).map
    (fun e => (⟨Action.delete, e.1, ""⟩ : AbsEvent))
  let res :=
    if removed.isEmpty then []
    else
      match (properPrefixes p).reverse.find?
          (fun a => hasValueAt remaining a && !(strictlyBelow remaining a)) with
      | some a => [(⟨Action.update, a, (lookupVal remaining a).getD ""⟩ : AbsEvent)]
      | none => []
  dels ++ res

/-- Modelled from the spec: Watch (spec 4.4): anchor a watcher at the
normalized path, creating the node if absent; the buffer size does not affect
the synchronous state model. -/
def Watch (s : StoreState) (path : String) (bufSize : Nat) : StoreState :=
  let _ := bufSize
  { s with live := normalize path :: s.live, anchors := normalize path :: s.anchors }

/-- Modelled from the spec: Watcher.Remove (spec 4.4): the watcher stops being
live, but its anchor node is reclaimed only by the background sweeper. -/
def RemoveWatcher (s : StoreState) (path : String) : StoreState :=
  { s with live := s.live.erase (normalize path) }

/-- Modelled from the spec: the background pruning sweeper (spec 4.4
auto-pruning): anchors whose watcher is no longer live are reclaimed, making
their nodes subject to the ordinary emptiness-based pruning. -/
def sweep (s : StoreState) : StoreState :=
  { s with anchors := s.anchors.filter (fun a => s.live.contains a) }

/-- Modelled from the spec: the internal lookup used by pruning (internalGet
in the test file): a node is present when it is the root, lies on the path to
a value-carrying node, or lies on the path to a not-yet-swept watcher
anchor. -/
def internalGetS (s : StoreState) (p : List String) : Bool :=
  p.isEmpty || s.leaves.any (fun e => List.isPrefixOf p e.1)
    || s.anchors.any (fun a => List.isPrefixOf p a)

/-- Modelled from the spec: internalGet over string paths. -/
def internalGet (s : StoreState) (path : String) : Bool :=
  internalGetS s (normalize path)

/-- Modelled from the spec: a path rewritten relative to a watch root (spec
4.1 Relativize): the suffix under the watch root with a leading slash, and
the bare slash for the watch root itself. -/
def relPathStr (w q : List String) : String :=
  match q.drop w.length with
  | [] => "/"
  | r => r.foldl (fun acc seg => acc ++ "/" ++ seg) ""

/-- Modelled from the spec: delivery of synthesized events to the watcher
anchored at w (spec 4.3): only events at paths under w are delivered, each
with its path rewritten relative to w. -/
def deliver (w : List String) (evs : List AbsEvent) : List Event :=
  (evs.filter (fun e => List.isPrefixOf w e.path)).map
    (fun e => ⟨e.action, relPathStr w e.path, e.value⟩)

/-- The normalized paths of the entries of one PutBulk call. -/
def bulkPaths (pre : String) (kvs : List (String × String)) :
    List (List String) :=
  kvs.map (bulkKey pre)

/-- No path in the list is a prefix (proper or not) of another one. -/
def prefixIncomparable : List (List String) → Bool
  | [] => true
  | p :: rest =>
      rest.all (fun q => !(List.isPrefixOf p q) && !(List.isPrefixOf q p))
        && prefixIncomparable rest

/-- A point mutation of the store: a scalar Put or a Delete. -/
inductive Op where
  | put : String → String → Op
  | del : String → Op

/-- Modelled from the spec: run a sequence of point mutations, accumulating
the synthesized events in mutation order. -/
def runOps : StoreState → List Op → StoreState × List AbsEvent
  | s, [] => (s, [])
  | s, Op.put path v :: rest =>
      let evs := putLeafEvents s.leaves (normalize path) v
      let r := runOps (putLeafSegs s (normalize path) v) rest
      (r.1, evs ++ r.2)
  | s, Op.del path :: rest =>
      let evs := deleteEvents s.leaves (normalize path)
      let r := runOps (deleteSegs s (normalize path)) rest
      (r.1, evs ++ r.2)

lemma isPrefixOf_self (l : List String) : List.isPrefixOf l l = true := by
  induction l with
  | nil => rfl
  | cons a t ih => simp [List.isPrefixOf, ih]

lemma relEntries_self_singleton (p : List String) (v : String) :
    relEntries [(p, v)] p = [([], v)] := by
  simp [relEntries, isPrefixOf_self, List.drop_length]

lemma getSegs_of_relEntries (s : StoreState) (p : List String) (v : String)
    (hp : p ≠ []) (hrel : relEntries s.leaves p = [([], v)]) :
    getSegs s p = some (Value.str v) := by
  cases p with
  | nil => exact absurd rfl hp
  | cons a t =>
      simp [getSegs, hrel, childNames, valueOf]

lemma getSegs_no_entries (s : StoreState) (p : List String)
    (hp : p ≠ []) (hrel : relEntries s.leaves p = []) : getSegs s p = none := by
  cases p with
  | nil => exact absurd rfl hp
  | cons a t => simp [getSegs, hrel]

/-- Claim C1: for every path P other than the root (a path whose normalized
segment sequence is nonempty) and every string V, on the fresh store, Put(P,V)
followed by Get(P) returns the value V, and a subsequent Delete(P) makes
Get(P) return not-found. -/
theorem c1_round_trip (P V : String) (h : normalize P ≠ []) :
    Get (Put newStore P (Value.str V)) P = some (Value.str V) ∧
    Get (Delete (Put newStore P (Value.str V)) P) P = none := by
  rcases hq : normalize P with _ | ⟨a, t⟩
  · exact absurd hq h
  · have hput : Put newStore P (Value.str V)
        = ⟨[(a :: t, V)], [], []⟩ := by
      show putLeafSegs newStore (normalize P) V = _
      rw [hq]
      rfl
    constructor
    · show getSegs (Put newStore P (Value.str V)) (normalize P) = _
      rw [hput, hq]
      exact getSegs_of_relEntries _ _ _ (by simp) (relEntries_self_singleton _ _)
    · show getSegs (deleteSegs (Put newStore P (Value.str V)) (normalize P))
        (normalize P) = none
      rw [hput, hq]
      apply getSegs_no_entries _ _ (by simp)
      simp [deleteSegs, relEntries, isPrefixOf_self]

/-- Witness for C1 at the concrete path of the basic store test. -/
theorem c1_round_trip_witness :
    normalize "/foo" ≠ [] ∧
    (Get (Put newStore "/foo" (Value.str "bar")) "/foo"
        = some (Value.str "bar") ∧
      Get (Delete (Put newStore "/foo" (Value.str "bar")) "/foo") "/foo"
        = none) :=
  ⟨by decide, c1_round_trip "/foo" "bar" (by decide)⟩

/-- Claim C2: a node holding a leaf value that gains a child presents as a
mapping, not as the leaf value; after the last child is deleted the shadowed
leaf value resurfaces unchanged. -/
theorem c2_leaf_dir_duality (v x : String) :
    Get (Put (Put newStore "/n" (Value.str v)) "/n/c" (Value.str x)) "/n"
        = some (Value.map [("c", Value.str x)]) ∧
    Get (Put (Put newStore "/n" (Value.str v)) "/n/c" (Value.str x)) "/n"
        ≠ some (Value.str v) ∧
    Get (Delete (Put (Put newStore "/n" (Value.str v)) "/n/c" (Value.str x))
        "/n/c") "/n" = some (Value.str v) :=
  ⟨rfl, fun h => Value.noConfusion (Option.some.inj h), rfl⟩

/-- Claim C3: a watcher anchored at /nodes/6 observes, for the mutation
sequence Put(/nodes/6, x); Put(/nodes/6/k, y); Delete(/nodes/6/k), exactly
the event sequence Update "/" x, Delete "/", Update "/k" y, Delete "/k",
Update "/" x, in that order, with every path relative to the watch root. -/
theorem c3_shadow_resurrect_events :
    (runOps newStore
        [Op.put "/nodes/6" "x", Op.put "/nodes/6/k" "y", Op.del "/nodes/6/k"]).1
      = Delete (Put (Put newStore "/nodes/6" (Value.str "x")) "/nodes/6/k"
          (Value.str "y")) "/nodes/6/k" ∧
    deliver (normalize "/nodes/6")
      (runOps newStore
        [Op.put "/nodes/6" "x", Op.put "/nodes/6/k" "y", Op.del "/nodes/6/k"]).2
      = [⟨Action.update, "/", "x"⟩, ⟨Action.delete, "/", ""⟩,
         ⟨Action.update, "/k", "y"⟩, ⟨Action.delete, "/k", ""⟩,
         ⟨Action.update, "/", "x"⟩] :=
  ⟨rfl, rfl⟩

/-- Claim C4: a Put at the root with a scalar value leaves the store state
entirely unchanged, and the root keeps reading as a (possibly empty) mapping:
the root is always a directory. -/
theorem c4_root_put_noop (s : StoreState) (v : String) :
    Put s "/" (Value.str v) = s ∧ ∃ m, Get s "/" = some (Value.map m) :=
  ⟨rfl, ⟨_, rfl⟩⟩

/-- Claim C5: blank path segments are collapsed during normalization, so a Put
at /test//node is the same operation as a Put at /test/node; and a nested
mapping whose keys are empty strings contributes no observable entry, leaving
the root mapping empty. -/
theorem c5_blank_segment_normalization (s : StoreState) (V : Value) :
    Put s "/test//node" V = Put s "/test/node" V ∧
    Get (Put newStore "/" (Value.map [("", Value.map [("", Value.str "x")])]))
        "/" = some (Value.map []) :=
  ⟨rfl, rfl⟩

/-- Claim C6: after Put(/a/b/c, x) and Delete(/a/b/c), the emptied ancestors
are pruned: Get(/a) is not found and the internal lookup finds neither /a nor
/a/b. -/
theorem c6_auto_pruning (x : String) :
    Get (Delete (Put newStore "/a/b/c" (Value.str x)) "/a/b/c") "/a" = none ∧
    internalGet (Delete (Put newStore "/a/b/c" (Value.str x)) "/a/b/c") "/a"
        = false ∧
    internalGet (Delete (Put newStore "/a/b/c" (Value.str x)) "/a/b/c") "/a/b"
        = false :=
  ⟨rfl, rfl, rfl⟩

/-- Claim C7: after Put(/n/a, 1) and Put(/n/b, 2), a Delete of the directory
/n delivers to a root watcher exactly one Delete event per descendant leaf —
two events, for /n/a and /n/b — and no other event (in particular none for
the directory path /n itself). -/
theorem c7_subtree_delete_fanout :
    deliver (normalize "/")
      (deleteEvents
        (Put (Put newStore "/n/a" (Value.str "1")) "/n/b" (Value.str "2")).leaves
        (normalize "/n"))
      = [⟨Action.delete, "/n/a", ""⟩, ⟨Action.delete, "/n/b", ""⟩] :=
  rfl

/-- Claim C8: after the last watcher of an otherwise empty subtree is removed,
the background sweeper prunes the formerly watched nodes: the internal lookup
then finds neither the watch-root node /nodes/6 nor its emptied ancestor
/nodes, while before the removal the watch root was still found. -/
theorem c8_sweeper_prunes_after_remove :
    internalGet
        (Delete (Put (Watch newStore "/nodes/6" 100) "/nodes/6/name"
          (Value.str "node6")) "/nodes/6") "/nodes/6" = true ∧
    internalGet
        (sweep (RemoveWatcher
          (Delete (Put (Watch newStore "/nodes/6" 100) "/nodes/6/name"
            (Value.str "node6")) "/nodes/6") "/nodes/6")) "/nodes/6" = false ∧
    internalGet
        (sweep (RemoveWatcher
          (Delete (Put (Watch newStore "/nodes/6" 100) "/nodes/6/name"
            (Value.str "node6")) "/nodes/6") "/nodes/6")) "/nodes" = false :=
  ⟨rfl, rfl, rfl⟩

/-- Claim C10: a node carrying a live watcher is never pruned: whatever
subtree a Delete removes, and whatever the sweeper reclaims, the internal
lookup still finds the anchor of every live watcher. -/
theorem c10_live_watcher_not_pruned (s : StoreState) (wpath qpath : String)
    (hw : normalize wpath ∈ s.live) (hsub : ∀ x ∈ s.live, x ∈ s.anchors) :
    internalGet (Delete s qpath) wpath = true ∧
    internalGet (sweep s) wpath = true := by
  constructor
  · simp only [internalGet, internalGetS, Delete, deleteSegs, Bool.or_eq_true,
      List.any_eq_true]
    exact Or.inr ⟨_, hsub _ hw, isPrefixOf_self _⟩
  · simp only [internalGet, internalGetS, sweep, Bool.or_eq_true,
      List.any_eq_true]
    refine Or.inr ⟨normalize wpath, ?_, isPrefixOf_self _⟩
    refine List.mem_filter.2 ⟨hsub _ hw, ?_⟩
    simpa [List.contains] using hw

lemma upsert_of_not_mem (l : List (List String × String)) (p : List String)
    (v : String) (h : ∀ e ∈ l, e.1 ≠ p) : upsert l p v = l ++ [(p, v)] := by
  have hfalse : (l.any (fun e => e.1 == p)) = false := by
    rw [List.any_eq_false]
    intro e he
    simpa using h e he
  simp [upsert, hfalse]

lemma relEntries_append (l1 l2 : List (List String × String))
    (p : List String) :
    relEntries (l1 ++ l2) p = relEntries l1 p ++ relEntries l2 p := by
  simp [relEntries, List.filterMap_append]

lemma relEntries_eq_nil (l : List (List String × String)) (p : List String)
    (h : ∀ e ∈ l, List.isPrefixOf p e.1 = false) : relEntries l p = [] := by
  rw [relEntries, List.filterMap_eq_nil_iff]
  intro e he
  simp [h e he]

lemma prefixIncomparable_cons (p : List String) (rest : List (List String))
    (h : prefixIncomparable (p :: rest) = true) :
    (∀ q ∈ rest, List.isPrefixOf p q = false ∧ List.isPrefixOf q p = false)
      ∧ prefixIncomparable rest = true := by
  rw [prefixIncomparable, Bool.and_eq_true, List.all_eq_true] at h
  refine ⟨fun q hq => ?_, h.2⟩
  have := h.1 q hq
  rw [Bool.and_eq_true, Bool.not_eq_true', Bool.not_eq_true'] at this
  exact this

lemma putBulk_leaves (pre : String) :
    ∀ (kvs : List (String × String)) (s : StoreState),
      (bulkPaths pre kvs).all (fun p => !p.isEmpty) = true →
      prefixIncomparable (bulkPaths pre kvs) = true →
      (∀ kv ∈ kvs, ∀ e ∈ s.leaves, e.1 ≠ bulkKey pre kv) →
      PutBulk s pre kvs
        = { s with
            leaves := s.leaves ++ kvs.map (fun kv => (bulkKey pre kv, kv.2)) } := by
  intro kvs
  induction kvs with
  | nil => intro s _ _ _; simp [PutBulk]
  | cons hd rest ih =>
      intro s h1 h2 hacc
      have h1hd : (bulkKey pre hd).isEmpty = false := by
        rw [bulkPaths, List.map_cons, List.all_cons, Bool.and_eq_true] at h1
        simpa using h1.1
      have h1rest : (bulkPaths pre rest).all (fun p => !p.isEmpty) = true := by
        rw [bulkPaths, List.map_cons, List.all_cons, Bool.and_eq_true] at h1
        exact h1.2
      obtain ⟨hhd, h2rest⟩ := prefixIncomparable_cons _ _ h2
      have hne : bulkKey pre hd ≠ [] := by
        intro hcon
        rw [hcon] at h1hd
        simp at h1hd
      have hstep : putLeafSegs s (bulkKey pre hd) hd.2
          = { s with leaves := s.leaves ++ [(bulkKey pre hd, hd.2)] } := by
        simp only [putLeafSegs, h1hd]
        rw [if_neg (by simp), upsert_of_not_mem]
        intro e he
        exact hacc hd (List.mem_cons_self _ _) e he
      have hacc' : ∀ kv ∈ rest,
          ∀ e ∈ (s.leaves ++ [(bulkKey pre hd, hd.2)]), e.1 ≠ bulkKey pre kv := by
        intro kv hkv e he
        rcases List.mem_append.1 he with hold | hnew
        · exact hacc kv (List.mem_cons_of_mem _ hkv) e hold
        · have heq : e = (bulkKey pre hd, hd.2) := by simpa using hnew
          rw [heq]
          intro hcon
          have hcon' : bulkKey pre hd = bulkKey pre kv := hcon
          have hq := (hhd (bulkKey pre kv)
            (List.mem_map.2 ⟨kv, hkv, rfl⟩)).1
          rw [hcon', isPrefixOf_self] at hq
          simp at hq
      have hPB : PutBulk s pre (hd :: rest)
          = PutBulk (putLeafSegs s (bulkKey pre hd) hd.2) pre rest := rfl
      rw [hPB, hstep,
        ih { s with leaves := s.leaves ++ [(bulkKey pre hd, hd.2)] }
          h1rest h2rest hacc']
      simp

lemma relEntries_bulk (pre : String) :
    ∀ (kvs : List (String × String)),
      prefixIncomparable (bulkPaths pre kvs) = true →
      ∀ kv ∈ kvs,
        relEntries (kvs.map (fun kv' => (bulkKey pre kv', kv'.2)))
          (bulkKey pre kv) = [([], kv.2)] := by
  intro kvs
  induction kvs with
  | nil => intro _ kv hkv; exact absurd hkv (List.not_mem_nil kv)
  | cons hd rest ih =>
      intro h2 kv hkv
      obtain ⟨hhd, h2rest⟩ := prefixIncomparable_cons _ _ h2
      rcases List.mem_cons.1 hkv with rfl | hmem
      · rw [List.map_cons, relEntries, List.filterMap_cons]
        have hself : List.isPrefixOf (bulkKey pre kv) (bulkKey pre kv) = true :=
          isPrefixOf_self _
        rw [hself]
        simp only [if_true, List.drop_length]
        have hrest : relEntries
            (rest.map (fun kv' => (bulkKey pre kv', kv'.2)))
            (bulkKey pre kv) = [] := by
          apply relEntries_eq_nil
          intro e he
          obtain ⟨kv', hkv', rfl⟩ := List.mem_map.1 he
          exact (hhd (bulkKey pre kv') (List.mem_map.2 ⟨kv', hkv', rfl⟩)).1
        show ([], kv.2) :: relEntries
            (rest.map (fun kv' => (bulkKey pre kv', kv'.2))) (bulkKey pre kv)
          = [([], kv.2)]
        rw [hrest]
      · rw [List.map_cons, relEntries, List.filterMap_cons]
        have hhead : List.isPrefixOf (bulkKey pre kv) (bulkKey pre hd) = false :=
          (hhd (bulkKey pre kv) (List.mem_map.2 ⟨kv, hmem, rfl⟩)).2
        rw [hhead]
        show relEntries (rest.map (fun kv' => (bulkKey pre kv', kv'.2)))
            (bulkKey pre kv) = [([], kv.2)]
        exact ih h2rest kv hmem

/-- Claim C9 counterexample: with entries whose normalized paths are nested
(one a proper prefix of the other), Get at the shorter path returns the
materialized directory, not the mapped value, so the unconditional claim
fails. -/
theorem c9_putbulk_counterexample :
    Get (PutBulk newStore "/" [("a", "1"), ("a/b", "2")]) "/a"
        = some (Value.map [("b", Value.str "2")]) ∧
    Get (PutBulk newStore "/" [("a", "1"), ("a/b", "2")]) "/a"
        ≠ some (Value.str "1") :=
  ⟨rfl, fun h => Value.noConfusion (Option.some.inj h)⟩

/-- Claim C9 (amended): for every prefix and finite list of entries whose
normalized paths — normalize of prefix ++ "/" ++ key — are nonempty and
pairwise prefix-incomparable, PutBulk on the empty store behaves as the leaf
Put of each entry at its normalized path: Get of each such path afterwards
returns the mapped value. -/
theorem c9_putbulk_prefix_free (pre : String) (kvs : List (String × String))
    (h1 : (bulkPaths pre kvs).all (fun p => !p.isEmpty) = true)
    (h2 : prefixIncomparable (bulkPaths pre kvs) = true) :
    ∀ kv ∈ kvs,
      Get (PutBulk newStore pre kvs) (pre ++ "/" ++ kv.1)
        = some (Value.str kv.2) := by
  intro kv hkv
  have hleaves := putBulk_leaves pre kvs newStore h1 h2
    (by intro kv' _ e he; exact absurd he (List.not_mem_nil e))
  show getSegs (PutBulk newStore pre kvs) (bulkKey pre kv) = _
  rw [hleaves]
  apply getSegs_of_relEntries
  · have hmem : bulkKey pre kv ∈ bulkPaths pre kvs :=
      List.mem_map.2 ⟨kv, hkv, rfl⟩
    have := List.all_eq_true.1 h1 _ hmem
    intro hcon
    rw [hcon] at this
    simp at this
  · show relEntries ([] ++ kvs.map (fun kv' => (bulkKey pre kv', kv'.2)))
        (bulkKey pre kv) = [([], kv.2)]
    rw [List.nil_append]
    exact relEntries_bulk pre kvs h2 kv hkv

/-- Witness for the amended C9 at the concrete bulk load of the test. -/
theorem c9_putbulk_prefix_free_witness :
    ((bulkPaths "/"
        [("/clusters/1/ip", "192.168.0.1"), ("/clusters/1/name", "cluster-1")]).all
      (fun p => !p.isEmpty) = true) ∧
    (prefixIncomparable (bulkPaths "/"
        [("/clusters/1/ip", "192.168.0.1"), ("/clusters/1/name", "cluster-1")])
      = true) ∧
    (∀ kv ∈ [("/clusters/1/ip", "192.168.0.1"),
        ("/clusters/1/name", "cluster-1")],
      Get (PutBulk newStore "/"
          [("/clusters/1/ip", "192.168.0.1"), ("/clusters/1/name", "cluster-1")])
        ("/" ++ "/" ++ kv.1) = some (Value.str kv.2)) :=
  ⟨by decide, by decide,
    c9_putbulk_prefix_free "/"
      [("/clusters/1/ip", "192.168.0.1"), ("/clusters/1/name", "cluster-1")]
      (by decide) (by decide)⟩

/-- Witness for C10 at a concrete store with one live watcher at /nodes/6. -/
theorem c10_live_watcher_not_pruned_witness :
    normalize "/nodes/6" ∈ (Watch newStore "/nodes/6" 100).live ∧
    (∀ x ∈ (Watch newStore "/nodes/6" 100).live,
        x ∈ (Watch newStore "/nodes/6" 100).anchors) ∧
    (internalGet (Delete (Watch newStore "/nodes/6" 100) "/nodes/6") "/nodes/6"
        = true ∧
      internalGet (sweep (Watch newStore "/nodes/6" 100)) "/nodes/6" = true) :=
  ⟨by decide, by decide,
    c10_live_watcher_not_pruned (Watch newStore "/nodes/6" 100) "/nodes/6"
      "/nodes/6" (by decide) (by decide)⟩

end Metad
